import Mathlib

/-!
Verification of the report-diff calibration engine of the
`grub-snes-gamepad` repository (files `src/tools/snes-mapper.py` and
`src/tools/snes-mapper-standalone.py`, two near-identical scripts).

The engine is embedded shallowly:

* a HID report is a list of byte values (`Report`);
* `read_report` results are `Option Report` (`none` = USB timeout /
  read failure; the scripts map every read exception to `None`);
* the blocking loops (`get_baseline`'s 20-read loop, the press-wait
  loop bounded by the wall-clock timeout, the unbounded release-wait
  loop) are modelled as functions over the finite trace of read
  results the loop consumes;
* Python's `max(set(reports), key=reports.count)` iterates over a
  `set`, whose iteration order is not the insertion order (it depends
  on the per-process hash seed).  The selection is therefore modelled
  as a function of both the sample list and an arbitrary enumeration
  `order` of its distinct values, constrained only by
  `∀ x, x ∈ order ↔ x ∈ reports` (plus `Nodup` where relevant);
  Python's `max` keeps the first element of the iteration whose key is
  strictly greater than the current best, i.e. on ties the earliest
  element of the iteration order wins.
-/

/-- A HID input report: a fixed-length sequence of byte values. -/
abbrev Report := List Nat

/-- One byte-level difference between baseline and a pressed report, as
stored by the scripts: `{'byte': i, 'from'/'baseline': a, 'to'/'pressed': b}`
(the primary script additionally stores the derived xor `b ^ a`). -/
structure ByteDiff where
  byteIndex : Nat
  fromValue : Nat
  toValue : Nat
deriving DecidableEq, Repr

/-- The change detector, generalised over the starting index of the
enumeration.  With `k = 0` this is exactly the list comprehension
`[{'byte': i, 'from': a, 'to': b} for i, (a, b) in enumerate(zip(baseline, r)) if a != b]`
from `wait_button` / `wait_for_button`.  Note that `zip` silently
truncates to the shorter input; there is no length check in the code. -/
def diffChangesFrom (k : Nat) (baseline report : Report) : List ByteDiff :=
  ((baseline.zip report).enumFrom k).filterMap fun p =>
    if p.2.1 ≠ p.2.2 then some ⟨p.1, p.2.1, p.2.2⟩ else none

/-- The change detector of the scripts (enumeration starts at 0). -/
def diffChanges (baseline report : Report) : List ByteDiff :=
  diffChangesFrom 0 baseline report

/-- Replaying a diff list over a report: write each `toValue` at its
`byteIndex` (out-of-range writes are no-ops, as for `List.set`). -/
def applyDiffs (b : Report) (ds : List ByteDiff) : Report :=
  ds.foldl (fun acc d => acc.set d.byteIndex d.toValue) b

/-- `diffChecked` — Modelled from the spec (refinement reference only):
the spec's Change Detector contract demands
`len(baseline) == len(candidate)` and declares a violation a
`ReportSizeMismatch` programming-contract failure (`none` here) rather
than a normal diff result. -/
def diffChecked (baseline report : Report) : Option (List ByteDiff) :=
  if baseline.length = report.length then some (diffChanges baseline report)
  else none

theorem diffChangesFrom_nil_left (k : Nat) (r : Report) :
    diffChangesFrom k [] r = [] := rfl

theorem diffChangesFrom_nil_right (k : Nat) (b : Report) :
    diffChangesFrom k b [] = [] := by
  cases b <;> rfl

theorem diffChangesFrom_cons (k : Nat) (a c : Nat) (bs rs : Report) :
    diffChangesFrom k (a :: bs) (c :: rs) =
      (if a ≠ c then [⟨k, a, c⟩] else []) ++ diffChangesFrom (k + 1) bs rs := by
  simp only [diffChangesFrom, List.zip_cons_cons, List.enumFrom_cons,
    List.filterMap_cons]
  by_cases h : a = c
  · simp [h]
  · simp [h]

example : diffChanges [255, 255] [127, 255] = [⟨0, 255, 127⟩] := by decide
example : diffChanges [1, 2, 3] [1, 2, 3] = [] := by decide
example : diffChanges [255] [255, 0] = [] := by decide

/-- Every diff produced from starting index `k` has `byteIndex ≥ k`, and
its `fromValue`/`toValue` are the bytes of baseline/report at the
corresponding position. -/
theorem diffChangesFrom_mem (k : Nat) (b r : Report) (d : ByteDiff)
    (hd : d ∈ diffChangesFrom k b r) :
    k ≤ d.byteIndex ∧ b.get? (d.byteIndex - k) = some d.fromValue ∧
      r.get? (d.byteIndex - k) = some d.toValue := by
  induction b generalizing r k with
  | nil => simp [diffChangesFrom_nil_left] at hd
  | cons a bs ih =>
    cases r with
    | nil => simp [diffChangesFrom_nil_right] at hd
    | cons c rs =>
      rw [diffChangesFrom_cons] at hd
      rcases List.mem_append.mp hd with h1 | h2
      · by_cases hac : a = c
        · simp [hac] at h1
        · simp [hac] at h1
          subst h1
          simp
      · obtain ⟨hk, hb, hr⟩ := ih (k + 1) rs h2
        refine ⟨Nat.le_of_succ_le hk, ?_, ?_⟩
        · have : d.byteIndex - k = (d.byteIndex - (k + 1)) + 1 := by omega
          rw [this]
          simpa using hb
        · have : d.byteIndex - k = (d.byteIndex - (k + 1)) + 1 := by omega
          rw [this]
          simpa using hr

/-- The diff list is strictly ascending in `byteIndex`. -/
theorem diffChangesFrom_pairwise (k : Nat) (b r : Report) :
    (diffChangesFrom k b r).Pairwise (fun d e => d.byteIndex < e.byteIndex) := by
  induction b generalizing r k with
  | nil => simp [diffChangesFrom_nil_left]
  | cons a bs ih =>
    cases r with
    | nil => simp [diffChangesFrom_nil_right]
    | cons c rs =>
      rw [diffChangesFrom_cons]
      by_cases hac : a = c
      · simpa [hac] using ih (k + 1) rs
      · simp only [hac, ne_eq, not_false_eq_true, if_pos, List.singleton_append]
        refine List.Pairwise.cons ?_ (ih (k + 1) rs)
        intro e he
        have := (diffChangesFrom_mem (k + 1) bs rs e he).1
        show k < e.byteIndex
        omega

/-- For equal-length inputs the diff is empty iff the inputs are equal. -/
theorem diffChangesFrom_eq_nil_iff (k : Nat) (b r : Report)
    (h : b.length = r.length) :
    diffChangesFrom k b r = [] ↔ b = r := by
  induction b generalizing r k with
  | nil =>
    cases r with
    | nil => simp [diffChangesFrom_nil_left]
    | cons c rs => simp at h
  | cons a bs ih =>
    cases r with
    | nil => simp at h
    | cons c rs =>
      rw [diffChangesFrom_cons]
      simp only [List.length_cons, Nat.succ.injEq] at h
      by_cases hac : a = c
      · subst hac
        simpa using ih (k + 1) rs h
      · simp [hac]

/-- Writing at the length of the prefix replaces the head of the suffix. -/
theorem set_append_cons (pre : Report) (a c : Nat) (bs : Report) :
    (pre ++ a :: bs).set pre.length c = pre ++ c :: bs := by
  induction pre with
  | nil => rfl
  | cons x xs ih =>
    show x :: ((xs ++ a :: bs).set xs.length c) = x :: (xs ++ c :: bs)
    rw [ih]

/-- Round-trip, generalised over a common prefix: replaying the diffs of
the suffixes over the full baseline reconstructs the candidate. -/
theorem applyDiffs_diffChangesFrom (bs : Report) :
    ∀ (rs pre : Report), bs.length = rs.length →
      applyDiffs (pre ++ bs) (diffChangesFrom pre.length bs rs) = pre ++ rs := by
  induction bs with
  | nil =>
    intro rs pre h
    cases rs with
    | nil => rfl
    | cons c rs => simp at h
  | cons a bs ih =>
    intro rs pre h
    cases rs with
    | nil => simp at h
    | cons c rs =>
      simp only [List.length_cons, Nat.succ.injEq] at h
      rw [diffChangesFrom_cons]
      by_cases hac : a = c
      · subst hac
        simp only [ne_eq, not_true_eq_false, if_neg, not_false_eq_true,
          List.nil_append]
        have heq : pre ++ a :: bs = (pre ++ [a]) ++ bs := by simp
        have hlen : pre.length + 1 = (pre ++ [a]).length := by simp
        rw [heq, hlen, ih rs (pre ++ [a]) h]
        simp
      · simp only [hac, ne_eq, not_false_eq_true, if_pos, List.singleton_append]
        show applyDiffs ((pre ++ a :: bs).set pre.length c)
            (diffChangesFrom (pre.length + 1) bs rs) = pre ++ c :: rs
        rw [set_append_cons]
        have heq : pre ++ c :: bs = (pre ++ [c]) ++ bs := by simp
        have hlen : pre.length + 1 = (pre ++ [c]).length := by simp
        rw [heq, hlen, ih rs (pre ++ [c]) h]
        simp

/-! ## Baseline estimator (`get_baseline`) -/

/-- One comparison step of Python's `max(iterable, key=key)`: the
current best is replaced only when the new key is strictly greater, so
on ties the earliest element of the iteration order wins. -/
def pyMaxStep (key : Report → Nat) (cur y : Report) : Report :=
  if key y > key cur then y else cur

/-- Python's `max(iterable, key=key)`; `none` models the `ValueError`
on an empty iterable (unreachable in the script: it is guarded by
`if not reports`). -/
def pyMax (key : Report → Nat) : List Report → Option Report
  | [] => none
  | x :: xs => some (xs.foldl (pyMaxStep key) x)

/-- The selection step `max(set(reports), key=reports.count)` of
`get_baseline`.  `order` stands for the iteration order of
`set(reports)`: an enumeration of the distinct sampled reports whose
order is hash-dependent, not the insertion order. -/
def selectBaseline (reports : List Report) (order : List Report) : Option Report :=
  pyMax (fun r => reports.count r) order

/-- The sampling loop of `get_baseline`: each read yields `none`
(timeout / read failure) or a report, and `if r:` keeps only truthy
values, so a zero-length report is discarded exactly like a timeout. -/
def collectReports (reads : List (Option Report)) : List Report :=
  reads.filterMap fun o =>
    match o with
    | some r => if r = [] then none else some r
    | none => none

/-- `get_baseline` over the trace of its (twenty) reads: when no sample
was collected the script prints an error and calls `sys.exit(1)`
(modelled as `none`, the `NoDeviceSignal` abort); otherwise it returns
the modal sample under set-iteration order `order`. -/
def get_baseline (reads : List (Option Report)) (order : List Report) :
    Option Report :=
  let reports := collectReports reads
  if reports = [] then none else selectBaseline reports order

/-! ## Button capture (`wait_button` / `wait_for_button`) -/

/-- The release loop `while read_report(...) != baseline: sleep`:
`true` once some read equals the baseline byte-for-byte (a timed-out
read is `None`, which never equals a bytes value); `false` when the
finite trace is exhausted with the loop still spinning — the loop has
no timeout of its own. -/
def releaseWait (baseline : Report) : List (Option Report) → Bool
  | [] => false
  | o :: rest => if o = some baseline then true else releaseWait baseline rest

/-- Outcome of one `wait_button` invocation over a finite read trace. -/
inductive WaitResult where
  /-- A qualifying press was observed and a later read matched the
  baseline again: the script returns `{'report': r, 'changes': cs}`. -/
  | captured (report : Report) (changes : List ByteDiff)
  /-- The press-wait window closed with no qualifying read: the script
  returns `None`. -/
  | timedOut
  /-- A press was confirmed but no read of the trace matched the
  baseline again: the release loop is still spinning (unbounded wait,
  ended in practice only by an operator interrupt). -/
  | waitingRelease
deriving DecidableEq, Repr

/-- `wait_button` over the finite trace of reads consumed while the
wall-clock press timeout has not elapsed: a read that is falsy (`None`
or empty) or equal to baseline, or whose change list is empty, leaves
the loop polling; the first read with a non-empty change list is the
confirmation, after which the remaining trace feeds the release loop. -/
def wait_button (baseline : Report) : List (Option Report) → WaitResult
  | [] => .timedOut
  | o :: rest =>
    match o with
    | none => wait_button baseline rest
    | some r =>
      if r = [] then wait_button baseline rest
      else if r = baseline then wait_button baseline rest
      else if diffChanges baseline r = [] then wait_button baseline rest
      else if releaseWait baseline rest then .captured r (diffChanges baseline r)
      else .waitingRelease

/-! ## Per-session orchestration (`map_controller`) -/

/-- What happens while one logical button is being captured: either the
operator interrupts (Ctrl+C, caught by the `except KeyboardInterrupt`
around `wait_button`), or the loop consumes a trace of reads. -/
inductive ButtonEvent where
  | interrupted
  | reads (trace : List (Option Report))

/-- The per-button body of `map_controller`'s loop: an interrupt or an
unfinished release wait yields no capture (the button is recorded
absent and the loop moves on); a timeout likewise; only a captured
press yields a payload. -/
def captureOne (baseline : Report) : ButtonEvent → Option (Report × List ByteDiff)
  | .interrupted => none
  | .reads tr =>
    match wait_button baseline tr with
    | .captured r cs => some (r, cs)
    | _ => none

/-- The fixed, ordered 12-button table of `map_controller`
(display name, mapping key), from `snes-mapper.py`. -/
def buttons_to_map : List (String × String) :=
  [("D-PAD UP", "dpad_up"), ("D-PAD DOWN", "dpad_down"),
   ("D-PAD LEFT", "dpad_left"), ("D-PAD RIGHT", "dpad_right"),
   ("A BUTTON", "btn_a"), ("B BUTTON", "btn_b"),
   ("X BUTTON", "btn_x"), ("Y BUTTON", "btn_y"),
   ("START", "btn_start"), ("SELECT", "btn_select"),
   ("L SHOULDER", "btn_l"), ("R SHOULDER", "btn_r")]

/-- The button loop of `map_controller`: every button of the fixed
table is processed in order, each against its own event; a button with
no capture is recorded absent (`none`; in the script the key is simply
missing from the `buttons` dict) and the loop continues. -/
def map_controller (baseline : Report) (events : List ButtonEvent) :
    List (String × Option (Report × List ByteDiff)) :=
  (buttons_to_map.zip events).map fun be => (be.1.2, captureOne baseline be.2)

/-- A whole run: `map_controller` first estimates the baseline
(aborting the session when that fails) and only then walks the button
table; `none` means the script exited without writing any artifact. -/
structure Mapping where
  baseline : Report
  report_size : Nat
  buttons : List (String × Option (Report × List ByteDiff))

def run_session (reads : List (Option Report)) (order : List Report)
    (events : List ButtonEvent) : Option Mapping :=
  match get_baseline reads order with
  | none => none
  | some b => some ⟨b, b.length, map_controller b events⟩

example : get_baseline [none, some [3, 7], none, some [3, 7], some [9, 9]]
    [[9, 9], [3, 7]] = some [3, 7] := by decide
example : get_baseline [none, some [], none] [] = none := by decide
example : wait_button [255, 255]
    [none, some [255, 255], some [127, 255], some [255, 255]] =
    .captured [127, 255] [⟨0, 255, 127⟩] := by decide
example : wait_button [255, 255] [none, some [255, 255]] = .timedOut := by decide
example : wait_button [255, 255] [some [127, 255], none, some [0, 0]] =
    .waitingRelease := by decide

/-! ## Lemmas about the selection step -/

/-- Distinct values cannot jointly account for more than all samples. -/
theorem count_add_count_le_length (y m : Report) (h : y ≠ m) :
    ∀ reports : List Report,
      reports.count y + reports.count m ≤ reports.length := by
  intro reports
  induction reports with
  | nil => simp
  | cons a t ih =>
    rw [List.count_cons, List.count_cons]
    simp only [List.length_cons, beq_iff_eq]
    by_cases hy : a = y <;> by_cases hm : a = m
    · exact absurd (hy.symm.trans hm) h
    · rw [if_pos hy, if_neg hm]
      omega
    · rw [if_pos hm, if_neg hy]
      omega
    · rw [if_neg hy, if_neg hm]
      omega

/-- Python's `max` fold returns the unique strict maximiser whenever
one is present, no matter the iteration order. -/
theorem foldl_pyMaxStep_eq (key : Report → Nat) (m : Report) :
    ∀ (l : List Report) (cur : Report), (m = cur ∨ m ∈ l) →
      (∀ y, (y = cur ∨ y ∈ l) → y ≠ m → key y < key m) →
      l.foldl (pyMaxStep key) cur = m := by
  intro l
  induction l with
  | nil =>
    intro cur hm _
    rcases hm with h | h
    · exact h.symm
    · simp at h
  | cons a t ih =>
    intro cur hm hlt
    rw [List.foldl_cons]
    apply ih
    · rcases hm with hcur | hmem
      · by_cases ham : a = m
        · left
          unfold pyMaxStep
          split
          · exact ham.symm
          · exact hcur
        · have hka : key a < key m :=
            hlt a (Or.inr (List.mem_cons_self a t)) ham
          left
          unfold pyMaxStep
          rw [if_neg]
          · exact hcur
          · subst hcur
            omega
      · rcases List.mem_cons.mp hmem with hma | hmt
        · by_cases hcm : cur = m
          · left
            unfold pyMaxStep
            split
            · exact hma
            · exact hcm.symm
          · have hkc : key cur < key m := hlt cur (Or.inl rfl) hcm
            left
            unfold pyMaxStep
            rw [if_pos]
            · exact hma
            · subst hma
              omega
        · right
          exact hmt
    · intro y hy hym
      apply hlt y ?_ hym
      rcases hy with hy | hy
      · unfold pyMaxStep at hy
        split at hy
        · exact Or.inr (hy ▸ List.mem_cons_self a t)
        · exact Or.inl hy
      · exact Or.inr (List.mem_cons_of_mem a hy)

/-- The comparison step picks one of its two arguments. -/
theorem pyMaxStep_cases (key : Report → Nat) (cur a : Report) :
    pyMaxStep key cur a = a ∨ pyMaxStep key cur a = cur := by
  unfold pyMaxStep
  split
  · exact Or.inl rfl
  · exact Or.inr rfl

theorem le_key_pyMaxStep_left (key : Report → Nat) (cur a : Report) :
    key cur ≤ key (pyMaxStep key cur a) := by
  unfold pyMaxStep
  split <;> omega

theorem le_key_pyMaxStep_right (key : Report → Nat) (cur a : Report) :
    key a ≤ key (pyMaxStep key cur a) := by
  unfold pyMaxStep
  split <;> omega

/-- Python's `max` fold always lands on an element of the iteration
whose key dominates every key seen. -/
theorem foldl_pyMaxStep_spec (key : Report → Nat) :
    ∀ (l : List Report) (cur : Report),
      (l.foldl (pyMaxStep key) cur = cur ∨ l.foldl (pyMaxStep key) cur ∈ l) ∧
      key cur ≤ key (l.foldl (pyMaxStep key) cur) ∧
      ∀ y ∈ l, key y ≤ key (l.foldl (pyMaxStep key) cur) := by
  intro l
  induction l with
  | nil =>
    intro cur
    exact ⟨Or.inl rfl, Nat.le_refl _, by simp⟩
  | cons a t ih =>
    intro cur
    rw [List.foldl_cons]
    obtain ⟨hmem, hcur, hall⟩ := ih (pyMaxStep key cur a)
    refine ⟨?_, Nat.le_trans (le_key_pyMaxStep_left key cur a) hcur, ?_⟩
    · rcases hmem with h | h
      · rcases pyMaxStep_cases key cur a with hc | hc
        · exact Or.inr (List.mem_cons.mpr (Or.inl (h.trans hc)))
        · exact Or.inl (h.trans hc)
      · exact Or.inr (List.mem_cons_of_mem a h)
    · intro y hy
      rcases List.mem_cons.mp hy with hya | hyt
      · subst hya
        exact Nat.le_trans (le_key_pyMaxStep_right key cur y) hcur
      · exact hall y hyt

/-! ## Lemmas about sampling and the capture loop -/

/-- A report is collected iff it was actually read and is non-empty. -/
theorem mem_collectReports (reads : List (Option Report)) (r : Report) :
    r ∈ collectReports reads ↔ some r ∈ reads ∧ r ≠ [] := by
  unfold collectReports
  rw [List.mem_filterMap]
  constructor
  · rintro ⟨o, ho, hf⟩
    cases o with
    | none => simp at hf
    | some s =>
      by_cases hs : s = []
      · simp [hs] at hf
      · simp only [if_neg hs, Option.some.injEq] at hf
        subst hf
        exact ⟨ho, hs⟩
  · rintro ⟨ho, hr⟩
    exact ⟨some r, ho, by simp [hr]⟩

theorem releaseWait_nil (baseline : Report) :
    releaseWait baseline [] = false := rfl

theorem releaseWait_cons (baseline : Report) (o : Option Report)
    (rest : List (Option Report)) :
    releaseWait baseline (o :: rest) =
      if o = some baseline then true else releaseWait baseline rest := rfl

/-- The release loop terminates exactly when some read of its trace is
byte-for-byte the baseline. -/
theorem releaseWait_eq_true_iff (baseline : Report)
    (l : List (Option Report)) :
    releaseWait baseline l = true ↔ some baseline ∈ l := by
  induction l with
  | nil => simp [releaseWait_nil]
  | cons o rest ih =>
    rw [releaseWait_cons]
    by_cases ho : o = some baseline
    · simp [ho]
    · rw [if_neg ho, List.mem_cons, ih]
      constructor
      · exact Or.inr
      · rintro (h | h)
        · exact absurd h.symm ho
        · exact h

theorem wait_button_nil (baseline : Report) :
    wait_button baseline [] = .timedOut := rfl

theorem wait_button_cons_none (baseline : Report)
    (rest : List (Option Report)) :
    wait_button baseline (none :: rest) = wait_button baseline rest := rfl

theorem wait_button_cons_some (baseline s : Report)
    (rest : List (Option Report)) :
    wait_button baseline (some s :: rest) =
      if s = [] then wait_button baseline rest
      else if s = baseline then wait_button baseline rest
      else if diffChanges baseline s = [] then wait_button baseline rest
      else if releaseWait baseline rest then .captured s (diffChanges baseline s)
      else .waitingRelease := rfl

/-- Anatomy of a successful capture: the payload is the change list of
the confirming read, it is non-empty, and a later read of the trace
matched the baseline (the release synchronisation). -/
theorem wait_button_captured (baseline : Report) :
    ∀ (trace : List (Option Report)) (r : Report) (cs : List ByteDiff),
      wait_button baseline trace = .captured r cs →
      cs = diffChanges baseline r ∧ cs ≠ [] ∧ some baseline ∈ trace := by
  intro trace
  induction trace with
  | nil =>
    intro r cs h
    simp [wait_button_nil] at h
  | cons o rest ih =>
    intro r cs h
    have step : wait_button baseline rest = .captured r cs →
        cs = diffChanges baseline r ∧ cs ≠ [] ∧ some baseline ∈ o :: rest := by
      intro hr
      obtain ⟨h1, h2, h3⟩ := ih r cs hr
      exact ⟨h1, h2, List.mem_cons_of_mem o h3⟩
    cases o with
    | none =>
      rw [wait_button_cons_none] at h
      exact step h
    | some s =>
      rw [wait_button_cons_some] at h
      by_cases hs : s = []
      · rw [if_pos hs] at h
        exact step h
      · rw [if_neg hs] at h
        by_cases hsb : s = baseline
        · rw [if_pos hsb] at h
          exact step h
        · rw [if_neg hsb] at h
          by_cases hd : diffChanges baseline s = []
          · rw [if_pos hd] at h
            exact step h
          · rw [if_neg hd] at h
            by_cases hrel : releaseWait baseline rest
            · rw [if_pos hrel] at h
              injection h with hsr hcs
              subst hsr
              refine ⟨hcs.symm, hcs ▸ hd, List.mem_cons_of_mem _ ?_⟩
              exact (releaseWait_eq_true_iff baseline rest).mp hrel
            · rw [if_neg hrel] at h
              simp at h

/-- Replacing a zero-length read by a timeout does not change what the
release loop does (the baseline is a real, non-empty report). -/
theorem releaseWait_empty_read (baseline : Report) (hb : baseline ≠ []) :
    ∀ pre suf : List (Option Report),
      releaseWait baseline (pre ++ some [] :: suf) =
        releaseWait baseline (pre ++ none :: suf) := by
  intro pre suf
  induction pre with
  | nil =>
    rw [List.nil_append, List.nil_append, releaseWait_cons, releaseWait_cons]
    rw [if_neg (fun hc => hb (Option.some.inj hc).symm)]
    rw [if_neg (fun hc => Option.noConfusion hc)]
  | cons p ps ih =>
    rw [List.cons_append, List.cons_append, releaseWait_cons, releaseWait_cons,
      ih]

/-- Helper for indexing a zipped list. -/
theorem get?_zip_eq {α β : Type} (l1 : List α) :
    ∀ (l2 : List β) (j : Nat),
      (l1.zip l2).get? j =
        (l1.get? j).bind fun a => (l2.get? j).map fun b => (a, b) := by
  induction l1 with
  | nil =>
    intro l2 j
    simp
  | cons a t ih =>
    intro l2 j
    cases l2 with
    | nil => simp
    | cons b t2 =>
      cases j with
      | zero => rfl
      | succ j =>
        rw [List.zip_cons_cons]
        show (t.zip t2).get? j = _
        rw [ih t2 j]
        rfl

/-- A recorded capture comes from some read trace on which
`wait_button` confirmed a press and saw the release. -/
theorem captureOne_eq_some (baseline : Report) (ev : ButtonEvent)
    (r : Report) (cs : List ByteDiff)
    (h : captureOne baseline ev = some (r, cs)) :
    ∃ tr, ev = .reads tr ∧ wait_button baseline tr = .captured r cs := by
  cases ev with
  | interrupted => simp [captureOne] at h
  | reads tr =>
    refine ⟨tr, rfl, ?_⟩
    have h2 : (match wait_button baseline tr with
        | WaitResult.captured a b => some (a, b)
        | _ => (none : Option (Report × List ByteDiff))) = some (r, cs) := h
    cases hw : wait_button baseline tr with
    | captured r2 cs2 =>
      rw [hw] at h2
      simp only [Option.some.injEq, Prod.mk.injEq] at h2
      rw [h2.1, h2.2]
    | timedOut =>
      rw [hw] at h2
      simp at h2
    | waitingRelease =>
      rw [hw] at h2
      simp at h2

/-! ## Claims -/

/-- C2: for every pair of equal-length reports `b` and `r`, writing each
ByteDiff's `toValue` at its `byteIndex` over a copy of `b` reconstructs
exactly `r` (round-trip identity of diff and apply). -/
theorem C2_diff_apply_roundtrip (b r : Report) (h : b.length = r.length) :
    applyDiffs b (diffChanges b r) = r := by
  have h0 := applyDiffs_diffChangesFrom b r [] h
  simpa [diffChanges] using h0

theorem C2_witness :
    ([255, 255] : Report).length = ([127, 255] : Report).length ∧
    applyDiffs [255, 255] (diffChanges [255, 255] [127, 255]) = [127, 255] :=
  ⟨rfl, C2_diff_apply_roundtrip [255, 255] [127, 255] rfl⟩

/-- C8: for equal-length reports the diff is empty iff they are
byte-identical; in particular `diff(b, b)` is empty for every `b`. -/
theorem C8_diff_empty_iff (b r : Report) (h : b.length = r.length) :
    (diffChanges b r = [] ↔ b = r) ∧ diffChanges b b = [] := by
  refine ⟨diffChangesFrom_eq_nil_iff 0 b r h, ?_⟩
  exact (diffChangesFrom_eq_nil_iff 0 b b rfl).mpr rfl

theorem C8_witness :
    ([1, 2] : Report).length = ([1, 3] : Report).length ∧
    (diffChanges [1, 2] [1, 3] = [] ↔ ([1, 2] : Report) = [1, 3]) ∧
    diffChanges [1, 2] [1, 2] = [] :=
  ⟨rfl, (C8_diff_empty_iff [1, 2] [1, 3] rfl).1,
    (C8_diff_empty_iff [1, 2] [1, 3] rfl).2⟩

/-- C9: every capture recorded by the session has a non-empty diff
list, ordered by strictly ascending `byteIndex`, and each diff's
`fromValue` (and `toValue`) is the baseline (resp. observed) byte at
that index. -/
theorem C9_capture_invariants (baseline : Report) (ev : ButtonEvent)
    (r : Report) (cs : List ByteDiff)
    (h : captureOne baseline ev = some (r, cs)) :
    cs ≠ [] ∧ cs.Pairwise (fun d e => d.byteIndex < e.byteIndex) ∧
      ∀ d ∈ cs, baseline.get? d.byteIndex = some d.fromValue ∧
        r.get? d.byteIndex = some d.toValue := by
  obtain ⟨tr, _, hw⟩ := captureOne_eq_some baseline ev r cs h
  obtain ⟨hcs, hne, _⟩ := wait_button_captured baseline tr r cs hw
  subst hcs
  refine ⟨hne, diffChangesFrom_pairwise 0 baseline r, ?_⟩
  intro d hd
  have h2 := diffChangesFrom_mem 0 baseline r d hd
  exact ⟨by simpa using h2.2.1, by simpa using h2.2.2⟩

theorem C9_witness :
    captureOne [255, 255]
      (ButtonEvent.reads [some [127, 255], some [255, 255]]) =
      some ([127, 255], [⟨0, 255, 127⟩]) ∧
    ([⟨0, 255, 127⟩] : List ByteDiff) ≠ [] ∧
    ([⟨0, 255, 127⟩] : List ByteDiff).Pairwise
      (fun d e => d.byteIndex < e.byteIndex) ∧
    ∀ d ∈ ([⟨0, 255, 127⟩] : List ByteDiff),
      ([255, 255] : Report).get? d.byteIndex = some d.fromValue ∧
      ([127, 255] : Report).get? d.byteIndex = some d.toValue := by
  refine ⟨by decide, ?_⟩
  exact C9_capture_invariants [255, 255]
    (ButtonEvent.reads [some [127, 255], some [255, 255]])
    [127, 255] [⟨0, 255, 127⟩] (by decide)

/-- C6: after a press is confirmed the routine returns a successful
capture only if some subsequent read is byte-for-byte the baseline, and
the release loop never terminates on any finite trace in which no read
equals the baseline (timeouts and differing reads keep it spinning —
it has no timeout of its own). -/
theorem C6_release_sync (baseline : Report) :
    (∀ (trace : List (Option Report)) (r : Report) (cs : List ByteDiff),
        wait_button baseline trace = .captured r cs → some baseline ∈ trace) ∧
    (∀ rel : List (Option Report), (∀ o ∈ rel, o ≠ some baseline) →
        releaseWait baseline rel = false) := by
  constructor
  · intro trace r cs h
    exact (wait_button_captured baseline trace r cs h).2.2
  · intro rel hno
    by_contra hc
    simp only [Bool.not_eq_false] at hc
    exact hno _ ((releaseWait_eq_true_iff baseline rel).mp hc) rfl

theorem C6_witness :
    some ([255, 255] : Report) ∈
      ([some [127, 255], some [255, 255]] : List (Option Report)) ∧
    releaseWait [255, 255] [some [127, 255], none] = false := by
  constructor
  · exact (C6_release_sync [255, 255]).1 [some [127, 255], some [255, 255]]
      [127, 255] [⟨0, 255, 127⟩] (by decide)
  · exact (C6_release_sync [255, 255]).2 [some [127, 255], none] (by decide)

/-- C1: whenever one exact byte-sequence occurs in a strict majority of
the samples, the selection step of `get_baseline` returns exactly that
value — for every iteration order of the sample set, hence for every
ordering and position of the minority samples. -/
theorem C1_majority_baseline (reports order : List Report) (m : Report)
    (hmaj : 2 * reports.count m > reports.length)
    (horder : ∀ x, x ∈ order ↔ x ∈ reports) :
    selectBaseline reports order = some m := by
  have hm_reports : m ∈ reports := by
    by_contra hc
    rw [List.count_eq_zero_of_not_mem hc] at hmaj
    omega
  have hm_order : m ∈ order := (horder m).mpr hm_reports
  cases order with
  | nil => simp at hm_order
  | cons o os =>
    show some (os.foldl (pyMaxStep fun r => reports.count r) o) = some m
    congr 1
    apply foldl_pyMaxStep_eq
    · exact (List.mem_cons.mp hm_order).symm.symm
    · intro y hy hym
      show reports.count y < reports.count m
      have h1 := count_add_count_le_length y m hym reports
      omega

theorem C1_witness :
    2 * List.count ([7, 7] : Report) [[7, 7], [0, 1], [7, 7]] >
      ([[7, 7], [0, 1], [7, 7]] : List Report).length ∧
    selectBaseline [[7, 7], [0, 1], [7, 7]] [[0, 1], [7, 7]] = some [7, 7] := by
  have horder : ∀ x : Report, x ∈ ([[0, 1], [7, 7]] : List Report) ↔
      x ∈ ([[7, 7], [0, 1], [7, 7]] : List Report) := by
    intro x
    simp only [List.mem_cons, List.not_mem_nil, or_false]
    tauto
  exact ⟨by decide,
    C1_majority_baseline [[7, 7], [0, 1], [7, 7]] [[0, 1], [7, 7]] [7, 7]
      (by decide) horder⟩

/-- C4 counterexample: the sample list `[[0], [1]]` has `[0]` and `[1]`
tied at one occurrence each.  Both `[[0], [1]]` and `[[1], [0]]` are
legitimate iteration orders of `set(reports)` (same elements, no
duplicates), yet the selection returns `[0]` under the first and `[1]`
under the second — so the tie is broken by the hash-dependent set
order, not by first-seen order, and the result is not a function of
the sample sequence. -/
theorem C4_counterexample :
    (∀ x : Report, x ∈ ([[1], [0]] : List Report) ↔
      x ∈ ([[0], [1]] : List Report)) ∧
    ([[1], [0]] : List Report).Nodup ∧
    (∀ x : Report, x ∈ ([[0], [1]] : List Report) ↔
      x ∈ ([[0], [1]] : List Report)) ∧
    ([[0], [1]] : List Report).Nodup ∧
    selectBaseline [[0], [1]] [[0], [1]] = some [0] ∧
    selectBaseline [[0], [1]] [[1], [0]] = some [1] ∧
    ([1] : Report) ≠ [0] := by
  refine ⟨?_, by decide, fun x => Iff.rfl, by decide, by decide, by decide,
    by decide⟩
  intro x
  simp only [List.mem_cons, List.not_mem_nil, or_false]
  tauto

/-- C4 amended: under every iteration order of the sample set the
selection step returns some most-frequent sampled value; which of the
tied modal values it returns depends on the hash-dependent set
iteration order, not on first-seen order, so the result is not
determined by the sample sequence alone. -/
theorem C4_amended_modal (reports order : List Report)
    (horder : ∀ x, x ∈ order ↔ x ∈ reports) (hne : order ≠ []) :
    ∃ m, selectBaseline reports order = some m ∧ m ∈ reports ∧
      ∀ y ∈ reports, reports.count y ≤ reports.count m := by
  cases order with
  | nil => exact absurd rfl hne
  | cons o os =>
    obtain ⟨hmem, hcur, hall⟩ :=
      foldl_pyMaxStep_spec (fun r => reports.count r) os o
    refine ⟨os.foldl (pyMaxStep fun r => reports.count r) o, rfl, ?_, ?_⟩
    · refine (horder _).mp ?_
      rcases hmem with h | h
      · exact List.mem_cons.mpr (Or.inl h)
      · exact List.mem_cons_of_mem o h
    · intro y hy
      have hy_ord : y ∈ o :: os := (horder y).mpr hy
      rcases List.mem_cons.mp hy_ord with h | h
      · subst h
        simpa using hcur
      · simpa using hall y h

theorem C4_witness :
    ∃ m, selectBaseline [[0], [1]] [[1], [0]] = some m ∧
      m ∈ ([[0], [1]] : List Report) ∧
      ∀ y ∈ ([[0], [1]] : List Report),
        List.count y [[0], [1]] ≤ List.count m [[0], [1]] := by
  apply C4_amended_modal
  · intro x
    simp only [List.mem_cons, List.not_mem_nil, or_false]
    tauto
  · decide

/-- C7: when every baseline read yields no data there are zero
successful samples, `get_baseline` fails (`NoDeviceSignal`, the script
exits) and the run produces no mapping artifact; when at least one read
yields a (non-empty) report, estimation does not fail. -/
theorem C7_no_device_signal (reads : List (Option Report))
    (order : List Report) (events : List ButtonEvent)
    (horder : ∀ x, x ∈ order ↔ x ∈ collectReports reads) :
    ((∀ o ∈ reads, o = none) →
      get_baseline reads order = none ∧
        run_session reads order events = none) ∧
    ((∃ r, some r ∈ reads ∧ r ≠ []) →
      ∃ b, get_baseline reads order = some b) := by
  constructor
  · intro hall
    have hcol : collectReports reads = [] := by
      unfold collectReports
      rw [List.filterMap_eq_nil_iff]
      intro o ho
      rw [hall o ho]
    have hgb : get_baseline reads order = none := by
      show (if collectReports reads = [] then none
        else selectBaseline (collectReports reads) order) = none
      rw [if_pos hcol]
    refine ⟨hgb, ?_⟩
    unfold run_session
    rw [hgb]
  · rintro ⟨r, hr, hrne⟩
    have hrc : r ∈ collectReports reads :=
      (mem_collectReports reads r).mpr ⟨hr, hrne⟩
    have hcol_ne : collectReports reads ≠ [] := List.ne_nil_of_mem hrc
    have hro : r ∈ order := (horder r).mpr hrc
    cases order with
    | nil => simp at hro
    | cons o os =>
      refine ⟨os.foldl (pyMaxStep fun x => (collectReports reads).count x) o, ?_⟩
      show (if collectReports reads = [] then none
        else selectBaseline (collectReports reads) (o :: os)) = some _
      rw [if_neg hcol_ne]
      rfl

theorem C7_witness :
    (get_baseline [none, none] [] = none ∧
      run_session [none, none] [] [] = none) ∧
    ∃ b, get_baseline [some [5], none] [[5]] = some b := by
  constructor
  · exact (C7_no_device_signal [none, none] [] [] (fun x => Iff.rfl)).1
      (by decide)
  · exact (C7_no_device_signal [some [5], none] [[5]] [] (fun x => Iff.rfl)).2
      ⟨[5], by decide, by decide⟩

theorem collectReports_append (l1 l2 : List (Option Report)) :
    collectReports (l1 ++ l2) = collectReports l1 ++ collectReports l2 := by
  unfold collectReports
  rw [List.filterMap_append]

theorem collectReports_cons_empty (suf : List (Option Report)) :
    collectReports (some [] :: suf) = collectReports suf := rfl

theorem collectReports_cons_none (suf : List (Option Report)) :
    collectReports (none :: suf) = collectReports suf := rfl

/-- Replacing a zero-length read by a timeout does not change what the
press loop does either. -/
theorem wait_button_empty_read (baseline : Report) (hb : baseline ≠ []) :
    ∀ pre suf : List (Option Report),
      wait_button baseline (pre ++ some [] :: suf) =
        wait_button baseline (pre ++ none :: suf) := by
  intro pre suf
  induction pre with
  | nil =>
    rw [List.nil_append, List.nil_append, wait_button_cons_some,
      wait_button_cons_none, if_pos rfl]
  | cons p ps ih =>
    cases p with
    | none =>
      rw [List.cons_append, List.cons_append, wait_button_cons_none,
        wait_button_cons_none, ih]
    | some s =>
      rw [List.cons_append, List.cons_append, wait_button_cons_some,
        wait_button_cons_some]
      by_cases hs : s = []
      · rw [if_pos hs, if_pos hs, ih]
      · rw [if_neg hs, if_neg hs]
        by_cases hsb : s = baseline
        · rw [if_pos hsb, if_pos hsb, ih]
        · rw [if_neg hsb, if_neg hsb]
          by_cases hd : diffChanges baseline s = []
          · rw [if_pos hd, if_pos hd, ih]
          · rw [if_neg hd, if_neg hd,
              releaseWait_empty_read baseline hb ps suf]

/-- C10: a successful read of a zero-length report is treated exactly
like a timeout at every use site and position: baseline sampling
discards it (it contributes no successful sample) and the press/release
waiting behaves as if the read had timed out, so it never confirms a
press. -/
theorem C10_empty_read_like_timeout (baseline : Report) (hb : baseline ≠ [])
    (pre suf : List (Option Report)) :
    collectReports (pre ++ some [] :: suf) =
      collectReports (pre ++ none :: suf) ∧
    wait_button baseline (pre ++ some [] :: suf) =
      wait_button baseline (pre ++ none :: suf) := by
  constructor
  · rw [collectReports_append, collectReports_append,
      collectReports_cons_empty, collectReports_cons_none]
  · exact wait_button_empty_read baseline hb pre suf

theorem C10_witness :
    collectReports [none, some [], some [9], some [255]] =
      collectReports [none, none, some [9], some [255]] ∧
    wait_button [255] [none, some [], some [9], some [255]] =
      wait_button [255] [none, none, some [9], some [255]] :=
  C10_empty_read_like_timeout [255] (by decide) [none]
    [some [9], some [255]]

/-- C5 counterexample: at the concrete mismatched-length inputs
`b = [0xFF]`, `r = [0xFF, 0x00]` (and `b = [0]`, `r = [1, 2]`) the
code's change detector returns a normal diff result — the empty list,
respectively a diff computed over the truncated pair — instead of
failing, diverging from the spec-modelled checked contract
(`ReportSizeMismatch`, here `none`). -/
theorem C5_counterexample :
    ([255] : Report).length ≠ ([255, 0] : Report).length ∧
    diffChecked [255] [255, 0] = none ∧
    diffChanges [255] [255, 0] = [] ∧
    some (diffChanges [255] [255, 0]) ≠ diffChecked [255] [255, 0] ∧
    ([0] : Report).length ≠ ([1, 2] : Report).length ∧
    diffChanges [0] [1, 2] = [⟨0, 0, 1⟩] := by decide

theorem diffChangesFrom_take (k : Nat) (b : Report) :
    ∀ r, diffChangesFrom k b r =
      diffChangesFrom k (b.take r.length) (r.take b.length) := by
  induction b generalizing k with
  | nil =>
    intro r
    simp [diffChangesFrom_nil_left]
  | cons a bs ih =>
    intro r
    cases r with
    | nil => simp [diffChangesFrom_nil_right]
    | cons c rs =>
      simp only [List.length_cons, List.take_succ_cons]
      rw [diffChangesFrom_cons, diffChangesFrom_cons, ih (k + 1) rs]

/-- C5 amended: the change detector performs no length check — for
every pair of reports (equal length or not) it returns the normal diff
computed over the zip-truncated common prefix, and it agrees with the
spec's checked contract exactly when the lengths are equal. -/
theorem C5_amended_no_length_check (b r : Report) :
    diffChanges b r = diffChanges (b.take r.length) (r.take b.length) ∧
    (diffChecked b r = some (diffChanges b r) ↔ b.length = r.length) := by
  refine ⟨diffChangesFrom_take 0 b r, ?_⟩
  constructor
  · intro h
    by_cases hl : b.length = r.length
    · exact hl
    · unfold diffChecked at h
      rw [if_neg hl] at h
      exact absurd h (by simp)
  · intro h
    unfold diffChecked
    rw [if_pos h]

/-- Pointwise description of the button loop: entry `j` of the session
record pairs the `j`-th button key with the outcome of the `j`-th
capture, independently of every other button. -/
theorem map_controller_get?_eq (baseline : Report)
    (events : List ButtonEvent) (j : Nat) :
    (map_controller baseline events).get? j =
      (buttons_to_map.get? j).bind fun btn =>
        (events.get? j).map fun e => (btn.2, captureOne baseline e) := by
  unfold map_controller
  rw [List.get?_map, get?_zip_eq]
  cases hb : buttons_to_map.get? j with
  | none => rfl
  | some btn =>
    cases he : events.get? j with
    | none => rfl
    | some e => rfl

/-- C3: a per-button failure — press timeout or operator interrupt —
leaves exactly that button absent in the session record with no partial
capture, never aborts the run (`map_controller` is total), and every
button, before or after the failing one, is still processed in the
fixed table order with its own outcome. -/
theorem C3_per_button_failure_isolated (baseline : Report)
    (events : List ButtonEvent) (i : Nat) (ev : ButtonEvent)
    (btn : String × String)
    (hev : events.get? i = some ev)
    (hbtn : buttons_to_map.get? i = some btn)
    (hfail : captureOne baseline ev = none) :
    (map_controller baseline events).get? i = some (btn.2, none) ∧
    ∀ (j : Nat) (ev2 : ButtonEvent) (btn2 : String × String),
      events.get? j = some ev2 → buttons_to_map.get? j = some btn2 →
      (map_controller baseline events).get? j =
        some (btn2.2, captureOne baseline ev2) := by
  constructor
  · rw [map_controller_get?_eq, hbtn, hev]
    simp [hfail]
  · intro j ev2 btn2 he hb
    rw [map_controller_get?_eq, hb, he]
    rfl

/-- A concrete 12-button run in which the operator interrupts the fifth
button (index 4) and every other button is pressed and released. -/
def sampleEvents : List ButtonEvent :=
  List.replicate 4 (ButtonEvent.reads [some [9], some [255]]) ++
    ButtonEvent.interrupted ::
      List.replicate 7 (ButtonEvent.reads [some [9], some [255]])

theorem C3_witness :
    (map_controller [255] sampleEvents).get? 4 = some ("btn_a", none) ∧
    (map_controller [255] sampleEvents).get? 5 =
      some ("btn_b",
        captureOne [255] (ButtonEvent.reads [some [9], some [255]])) := by
  have h := C3_per_button_failure_isolated [255] sampleEvents 4
    ButtonEvent.interrupted ("A BUTTON", "btn_a") rfl rfl rfl
  exact ⟨h.1, h.2 5 (ButtonEvent.reads [some [9], some [255]])
    ("B BUTTON", "btn_b") rfl rfl⟩
